import Mathlib

/-!
Verification of the ingestion-and-retrieval engine of the rag-chatbot
repository (src/app/ingestion.py, src/app/retrieval.py, src/app/vectorstore.py)
against its natural-language specification.

Text is embedded as `List Char`; Python `str.strip()` becomes `pyStrip`;
machine floats that only ever hold exact decimal constants and reciprocal-rank
sums are embedded as `ℚ`.
-/

namespace Rag

/-- Text is modelled as a list of characters. -/
abbrev Str := List Char

/-- Python str.strip(): remove leading and trailing whitespace. -/
def pyStrip (s : Str) : Str :=
  (((s.dropWhile Char.isWhitespace).reverse).dropWhile Char.isWhitespace).reverse

/-! ## Chunker

`split_into_chunks` in src/app/ingestion.py strips the input and delegates the
actual splitting to LangChain's RecursiveCharacterTextSplitter, which is not
part of this repository.  The inner splitter is therefore modelled from the
spec (section 4.1): the text is cut into atomic units at separator boundaries
(a unit ends after a space or newline, keeping the separator so nothing is
lost), units are greedily packed into chunks of at most `size` characters, a
single atomic unit longer than `size` is emitted whole, and every chunk after
the first repeats up to `ov` trailing characters of its predecessor. -/

/-- Modelled from the spec: split text into atomic units at separator
boundaries (word/line boundaries), keeping each separator attached to the unit
it ends, so that the concatenation of all units is the original text. -/
def unitsGo (acc : Str) : Str → List Str
  | [] => if acc.isEmpty then [] else [acc]
  | c :: cs =>
      if c = ' ' ∨ c = '\n' then (acc ++ [c]) :: unitsGo [] cs
      else unitsGo (acc ++ [c]) cs

/-- Atomic units of a text. -/
def textUnits (s : Str) : List Str := unitsGo [] s

/-- The last `n` characters of a list. -/
def takeLastN (n : Nat) (l : Str) : Str := l.drop (l.length - n)

/-- Modelled from the spec: the overlap carried from a finished chunk `prev`
into a chunk starting with unit `u`: up to `ov` trailing characters of `prev`,
reduced so the new chunk still fits in `size`; an overlong atomic unit gets no
overlap (it is emitted whole on its own). -/
def overlapSlice (size ov : Nat) (prev u : Str) : Str :=
  if u.length ≤ size then takeLastN (min ov (size - u.length)) prev else []

/-- Modelled from the spec: greedily pack atomic units into chunks of at most
`size` characters.  Each emitted pair carries the length of the overlap prefix
the chunk repeats from its predecessor.  `o` is the overlap length of the
chunk `cur` currently being built. -/
def packGo (size ov : Nat) (o : Nat) (cur : Str) : List Str → List (Nat × Str)
  | [] => [(o, cur)]
  | u :: rest =>
      if cur.length + u.length ≤ size then
        packGo size ov o (cur ++ u) rest
      else
        (o, cur) ::
          packGo size ov (overlapSlice size ov cur u).length
            (overlapSlice size ov cur u ++ u) rest

/-- Modelled from the spec: pack a list of atomic units into overlapping
chunks; the first chunk carries no overlap. -/
def packUnits (size ov : Nat) : List Str → List (Nat × Str)
  | [] => []
  | u :: rest => packGo size ov 0 u rest

/-- Chunks (with their overlap lengths) of a text, as produced by the
modelled splitter on the stripped text. -/
def chunksWithOverlaps (text : Str) (size ov : Nat) : List (Nat × Str) :=
  packUnits size ov (textUnits (pyStrip text))

/-- split_into_chunks from src/app/ingestion.py: strip the text, return the
empty list when nothing remains, otherwise split (splitting itself modelled
from the spec, see above). -/
def split_into_chunks (text : Str) (size ov : Nat) : List Str :=
  if (pyStrip text).isEmpty then [] else (chunksWithOverlaps text size ov).map Prod.snd

/-- Concatenate chunks with each chunk's overlap prefix removed. -/
def removeOverlaps (l : List (Nat × Str)) : Str :=
  (l.map (fun p => p.2.drop p.1)).flatten

/-! ## Tracker Store

load_processed_files and mark_file_as_processed from src/app/ingestion.py.
The tracker file content is a character list; Python line iteration followed
by per-line strip is modelled by splitting on newline characters and stripping
each line. -/

/-- Split a character list into lines at newline characters (the newline is
consumed; a trailing newline yields a final empty line, as Python's line
iteration followed by strip behaves). -/
def splitLinesGo (acc : Str) : Str → List Str
  | [] => [acc]
  | c :: cs => if c = '\n' then acc :: splitLinesGo [] cs else splitLinesGo (acc ++ [c]) cs

/-- All lines of a tracker file content. -/
def splitLines (s : Str) : List Str := splitLinesGo [] s

/-- Keep the stripped, non-blank lines. -/
def loadLines (ls : List Str) : List Str :=
  (ls.map pyStrip).filter (fun l => !l.isEmpty)

/-- load_processed_files from src/app/ingestion.py: the set of stripped
non-blank lines of the tracker file (set membership is list membership). -/
def load_processed_files (content : Str) : List Str := loadLines (splitLines content)

/-- mark_file_as_processed from src/app/ingestion.py: append the name and a
newline to the tracker file. -/
def mark_file_as_processed (content : Str) (name : Str) : Str :=
  content ++ name ++ ['\n']

/-! ## Ingestion pipeline

ingest_pdf_bytes and the folder scan from src/app/ingestion.py.  A PDF page is
modelled by the outcome of its extract_text() call: either a raised error, or
an optional text (the source maps None to the empty string via `or ""`). -/

/-- Outcome of extracting text from one page. -/
abbrev PageExtract := Except Str (Option Str)

/-- Decidable equality of Except values, needed to evaluate ingestion
outcomes on concrete inputs. -/
instance exceptDecEq {ε α : Type} [DecidableEq ε] [DecidableEq α] :
    DecidableEq (Except ε α)
  | .error e, .error f =>
      if h : e = f then isTrue (by rw [h]) else isFalse (fun hh => h (by cases hh; rfl))
  | .error e, .ok y => isFalse (fun hh => by cases hh)
  | .ok x, .error f => isFalse (fun hh => by cases hh)
  | .ok x, .ok y =>
      if h : x = y then isTrue (by rw [h]) else isFalse (fun hh => h (by cases hh; rfl))

/-- Metadata attached to each chunk in ingest_pdf_bytes. -/
structure DocMeta where
  chunk_id : Str
  source : Str
  file_name : Str
  page_start : Nat
  page_end : Nat
  chunk_index : Nat
  section_title : Option Str
  section_type : Str
deriving DecidableEq

/-- A LangChain Document as built in ingest_pdf_bytes. -/
structure Document where
  page_content : Str
  metadata : DocMeta
deriving DecidableEq

/-- The preamble prepended to each chunk's content:
open bracket, File, colon, space, the file name, close bracket, newline. -/
def fileTag (fn : Str) : Str :=
  ('[' :: 'F' :: 'i' :: 'l' :: 'e' :: ':' :: ' ' :: []) ++ fn ++ (']' :: '\n' :: [])

/-- Decimal rendering of a natural number, as Python string interpolation
produces. -/
def natStr (n : Nat) : Str := Nat.toDigits 10 n

/-- The Document built for one chunk: content is the file preamble followed by
the chunk text; chunk_id interpolates file name, 1-based page number and
0-based chunk index separated by underscores. -/
def mkDoc (fn : Str) (pageNum chunkIdx : Nat) (chunk : Str) : Document :=
  { page_content := fileTag fn ++ chunk
    metadata :=
      { chunk_id := fn ++ '_' :: natStr pageNum ++ '_' :: natStr chunkIdx
        source := fn
        file_name := fn
        page_start := pageNum
        page_end := pageNum
        chunk_index := chunkIdx
        section_title := none
        section_type := ['t', 'e', 'x', 't'] } }

/-- Documents of one page's chunk list; `k` is the running 0-based chunk
index (the enumerate of the source). -/
def chunkDocs (fn : Str) (pageNum : Nat) (k : Nat) : List Str → List Document
  | [] => []
  | c :: cs => mkDoc fn pageNum k c :: chunkDocs fn pageNum (k + 1) cs

/-- Documents contributed by one page: a page whose text strips to empty is
skipped, otherwise the page text is chunked with chunk_size 1200 and
chunk_overlap 150. -/
def pageDocs (fn : Str) (pageNum : Nat) (t : Str) : List Document :=
  if (pyStrip t).isEmpty then []
  else chunkDocs fn pageNum 0 (split_into_chunks t 1200 150)

/-- The page loop of ingest_pdf_bytes, starting at 0-based page index `i`
(page numbers are `i + 1`).  A page whose extraction raises propagates its
error — the source has no per-page exception handler; extraction returning
None is treated as empty text by the source's `or ""`. -/
def buildDocs (fn : Str) : Nat → List PageExtract → Except Str (List Document)
  | _, [] => .ok []
  | i, p :: ps =>
      match p with
      | .error e => .error e
      | .ok t0 =>
          match buildDocs fn (i + 1) ps with
          | .error e => .error e
          | .ok docs => .ok (pageDocs fn (i + 1) (t0.getD []) ++ docs)

/-- Result of ingest_pdf_bytes: the returned dict together with the batch of
documents inserted into the index ([] when the index was not touched).
Modelled from the spec: insert_documents (imported by src/app/ingestion.py but
absent from src/app/vectorstore.py) batch-writes the documents and returns the
number inserted, as insert_documents_with_hybrid in src/app/vectorstore.py
does. -/
structure IngestOutcome where
  file_name : Str
  chunks_indexed : Nat
  inserted : List Document
deriving DecidableEq

/-- ingest_pdf_bytes from src/app/ingestion.py. -/
def ingest_pdf_bytes (pages : List PageExtract) (fn : Str) : Except Str IngestOutcome :=
  match buildDocs fn 0 pages with
  | .error e => .error e
  | .ok docs =>
      if docs.isEmpty then .ok ⟨fn, 0, []⟩
      else .ok ⟨fn, docs.length, docs⟩

/-- Mutable state touched by a folder-scan run: the tracker file content and
the index contents. -/
structure FolderState where
  tracker : Str
  index : List Document
deriving DecidableEq

/-- The result summary accumulated by _ingest_folder_impl. -/
structure FolderResults where
  processed : Nat
  skipped : Nat
  failed : Nat
  files_processed : List (Str × Nat)
  files_skipped : List Str
  files_failed : List (Str × Str)
deriving DecidableEq

/-- The initial (empty) result summary. -/
def emptyResults : FolderResults := ⟨0, 0, 0, [], [], []⟩

/-- One iteration of the folder loop of _ingest_folder_impl: skip files whose
name is in the processed-set snapshot; otherwise ingest and — unconditionally
after any non-raising ingest — mark the file as processed; a raised error is
caught, recorded, and isolated to this file. -/
def processOne (snapshot : List Str) (acc : FolderState × FolderResults)
    (f : Str × List PageExtract) : FolderState × FolderResults :=
  let st := acc.1
  let res := acc.2
  if f.1 ∈ snapshot then
    (st, { res with skipped := res.skipped + 1,
                    files_skipped := res.files_skipped ++ [f.1] })
  else
    match ingest_pdf_bytes f.2 f.1 with
    | .error e =>
        (st, { res with failed := res.failed + 1,
                        files_failed := res.files_failed ++ [(f.1, e)] })
    | .ok r =>
        ({ tracker := mark_file_as_processed st.tracker f.1,
           index := st.index ++ r.inserted },
         { res with processed := res.processed + 1,
                    files_processed := res.files_processed ++ [(f.1, r.chunks_indexed)] })

/-- _ingest_folder_impl from src/app/ingestion.py: load the processed set once
at the start of the run, then fold over the folder's files. -/
def ingest_folder_impl (files : List (Str × List PageExtract)) (st : FolderState) :
    FolderState × FolderResults :=
  files.foldl (processOne (load_processed_files st.tracker)) (st, emptyResults)

/-! ## Hybrid retrieval engine

hybrid_search_milvus and query_docs from src/app/retrieval.py.  The Milvus
collection is abstracted as ranked candidate orders (oracles); the fusion the
code delegates to collection.hybrid_search is modelled with the documented
semantics of the RRFRanker the code constructs: RRFRanker(k = RRF_K), which
takes no weights and scores every candidate by the sum of 1 / (k + rank) over
the request lists containing it.  Float scores are modelled as rationals. -/

/-- A record stored in the collection. -/
structure Record where
  text : Str
  file_name : Str
  chunk_id : Str
  page_start : Nat
  page_end : Nat
  chunk_index : Nat
  section_title : Option Str
  section_type : Str
  source : Str
deriving DecidableEq

/-- A formatted retrieval result as returned by src/app/retrieval.py. -/
structure RResult where
  chunk_id : Str
  file_name : Str
  section_title : Option Str
  section_type : Str
  page_start : Nat
  page_end : Nat
  chunk_index : Nat
  content : Str
  score : ℚ
  search_method : Str
deriving DecidableEq

/-- The search_method tag of hybrid results: hybrid_milvus. -/
def hybridTag : Str := ['h', 'y', 'b', 'r', 'i', 'd', '_', 'm', 'i', 'l', 'v', 'u', 's']

/-- The search_method tag of dense-only results: dense_only. -/
def denseTag : Str := ['d', 'e', 'n', 's', 'e', '_', 'o', 'n', 'l', 'y']

/-- DENSE_WEIGHT = 0.6 from src/app/retrieval.py (declared there, never
passed to the ranker). -/
def DENSE_WEIGHT : ℚ := 6 / 10

/-- SPARSE_WEIGHT = 0.4 from src/app/retrieval.py (declared there, never
passed to the ranker). -/
def SPARSE_WEIGHT : ℚ := 4 / 10

/-- RRF_K = 60 from src/app/retrieval.py, the only argument the code passes
to RRFRanker. -/
def RRF_K : Nat := 60

/-- 1-based rank of the first occurrence of a candidate in a ranked list. -/
def rankOf {α : Type} [DecidableEq α] (c : α) : List α → Option Nat
  | [] => none
  | x :: xs => if x = c then some 1 else (rankOf c xs).map (fun r => r + 1)

/-- Contribution of one ranked list to a candidate's fused score under the
RRFRanker the code constructs (no weights): 1 / (k + rank) when the candidate
appears in the list, zero otherwise. -/
def rrfContrib {α : Type} [DecidableEq α] (k : Nat) (c : α) (l : List α) : ℚ :=
  match rankOf c l with
  | none => 0
  | some r => 1 / ((k : ℚ) + r)

/-- Fused score over several ranked candidate lists, RRFRanker semantics:
every list carries equal weight 1. -/
def rrfScore {α : Type} [DecidableEq α] (k : Nat) (lists : List (List α)) (c : α) : ℚ :=
  (lists.map (rrfContrib k c)).sum

/-- Definition following the spec's words, for comparison with the code's
fusion: weighted Reciprocal Rank Fusion, where each ranked list carries a
weight and contributes weight / (K + rank). -/
def weightedRrfScore {α : Type} [DecidableEq α] (k : Nat)
    (lists : List (ℚ × List α)) (c : α) : ℚ :=
  (lists.map (fun wl => wl.1 * rrfContrib k c wl.2)).sum

/-- Does a record match the optional exact file_name filter (the expr string
built in hybrid_search_milvus, and the filter kwarg of the dense path)? -/
def matchesFilter (filt : Option Str) (r : Record) : Bool :=
  match filt with
  | none => true
  | some f => r.file_name = f

/-- One AnnSearchRequest against the collection: the engine's ranked candidate
order (the oracle `ranking`) restricted to records matching the request's
filter expression, truncated to the request limit. -/
def searchReq (ranking : List Record) (filt : Option Str) (lim : Nat) : List Record :=
  (ranking.filter (matchesFilter filt)).take lim

/-- Insert into a list assumed sorted by the Bool relation le. -/
def insertRanked {α : Type} (le : α → α → Bool) (a : α) : List α → List α
  | [] => [a]
  | b :: bs => if le a b then a :: b :: bs else b :: insertRanked le a bs

/-- Insertion sort by the Bool relation le. -/
def sortRanked {α : Type} (le : α → α → Bool) : List α → List α
  | [] => []
  | a :: as => insertRanked le a (sortRanked le as)

/-- The fusion performed inside collection.hybrid_search with the RRFRanker of
src/app/retrieval.py: pool the request candidate lists, order the distinct
candidates by descending fused score, and return the top `lim`. -/
def rrfFuse (k : Nat) (lists : List (List Record)) (lim : Nat) : List Record :=
  (sortRanked (fun a b => decide (rrfScore k lists b ≤ rrfScore k lists a))
    lists.flatten.dedup).take lim

/-- Formatting of one hybrid hit in hybrid_search_milvus: entity fields are
copied, content is the stored text, the score is the fused distance, and the
record is tagged hybrid_milvus. -/
def formatHybrid (k : Nat) (lists : List (List Record)) (r : Record) : RResult :=
  { chunk_id := r.chunk_id
    file_name := r.file_name
    section_title := r.section_title
    section_type := r.section_type
    page_start := r.page_start
    page_end := r.page_end
    chunk_index := r.chunk_index
    content := r.text
    score := rrfScore k lists r
    search_method := hybridTag }

/-- hybrid_search_milvus from src/app/retrieval.py: build the dense and the
sparse request, both with limit top_k * 2 and the same filter expression, fuse
them with RRFRanker(k = RRF_K) at limit top_k, and format the hits. -/
def hybrid_search_milvus (denseRanking sparseRanking : List Record)
    (top_k : Nat) (filt : Option Str) : List RResult :=
  (rrfFuse RRF_K
      [searchReq denseRanking filt (top_k * 2), searchReq sparseRanking filt (top_k * 2)]
      top_k).map
    (formatHybrid RRF_K
      [searchReq denseRanking filt (top_k * 2), searchReq sparseRanking filt (top_k * 2)])

/-- Formatting of one dense hit with its score in query_docs, tagged
dense_only. -/
def formatDense (p : Record × ℚ) : RResult :=
  { chunk_id := p.1.chunk_id
    file_name := p.1.file_name
    section_title := p.1.section_title
    section_type := p.1.section_type
    page_start := p.1.page_start
    page_end := p.1.page_end
    chunk_index := p.1.chunk_index
    content := p.1.text
    score := p.2
    search_method := denseTag }

/-- The dense-only path of query_docs: similarity_search_with_score with the
filter kwarg, modelled as the engine's scored ranking (oracle) restricted by
the filter and truncated to top_k. -/
def denseOnlySearch (denseScored : List (Record × ℚ)) (top_k : Nat)
    (filt : Option Str) : List RResult :=
  ((denseScored.filter (fun p => matchesFilter filt p.1)).take top_k).map formatDense

/-- query_docs from src/app/retrieval.py.  `hybridErr` injects a failure of
the hybrid search call (none means the call succeeds): with use_hybrid = True
a failing hybrid search falls back to the dense-only path instead of
propagating the error. -/
def query_docs (denseRanking sparseRanking : List Record)
    (denseScored : List (Record × ℚ)) (hybridErr : Option Str)
    (top_k : Nat) (filt : Option Str) (use_hybrid : Bool) : List RResult :=
  if use_hybrid then
    match hybridErr with
    | none => hybrid_search_milvus denseRanking sparseRanking top_k filt
    | some _ => denseOnlySearch denseScored top_k filt
  else denseOnlySearch denseScored top_k filt

/-- A sample record over file a, used to instantiate witnesses. -/
def sampleRecord : Record :=
  ⟨['h', 'i'], ['a'], ['a', '_', '1', '_', '0'], 1, 1, 0, none, ['t', 'e', 'x', 't'], ['a']⟩

/-- A sample record over file b, used to instantiate witnesses. -/
def otherRecord : Record :=
  ⟨['y', 'o'], ['b'], ['b', '_', '1', '_', '0'], 1, 1, 0, none, ['t', 'e', 'x', 't'], ['b']⟩

/-! ## Folder-ingestion concurrency guard

The module-level threading.Lock of src/app/ingestion.py and the non-blocking
acquire at the top of ingest_folder.  The lock is a Boolean state; a call is
two atomic transitions: the try-acquire and, for the winner, the release in
its finally block. -/

/-- Outcome of one ingest_folder call with respect to the guard. -/
inductive CallResult where
  | executed
  | skippedBusy
deriving DecidableEq

/-- The non-blocking acquire at the top of ingest_folder
(_ingestion_lock.acquire(blocking=False)): on a held lock the call returns
the skipped, already-running status immediately; on a free lock it takes the
lock and proceeds to run the folder scan. -/
def tryStart (held : Bool) : CallResult × Bool :=
  if held then (.skippedBusy, held) else (.executed, true)

/-- The release in the finally block of ingest_folder. -/
def finishRun (_ : Bool) : Bool := false

/-- Two ingest_folder calls whose acquire attempts both happen before the
winner's release (simultaneous calls); firstA chooses which call's attempt is
interleaved first.  Returns the outcomes of (call A, call B). -/
def overlappingRun (firstA : Bool) : CallResult × CallResult :=
  if firstA then ((tryStart false).1, (tryStart (tryStart false).2).1)
  else ((tryStart (tryStart false).2).1, (tryStart false).1)

/-! ### Chunker lemmas -/

theorem unitsGo_flatten (s acc : Str) : (unitsGo acc s).flatten = acc ++ s := by
  induction s generalizing acc with
  | nil =>
      by_cases h : acc.isEmpty
      · simp [unitsGo, h, List.isEmpty_iff.mp h]
      · simp [unitsGo, h]
  | cons c cs ih =>
      by_cases h : c = ' ' ∨ c = '\n'
      · simp [unitsGo, h, ih]
      · simp [unitsGo, h, ih]

theorem textUnits_flatten (s : Str) : (textUnits s).flatten = s := unitsGo_flatten s []

theorem unitsGo_ne_nil (s acc : Str) : ∀ u ∈ unitsGo acc s, u ≠ [] := by
  induction s generalizing acc with
  | nil =>
      by_cases h : acc.isEmpty
      · simp [unitsGo, h]
      · simpa [unitsGo, h] using List.isEmpty_iff.not.mp h
  | cons c cs ih =>
      intro u hu
      by_cases h : c = ' ' ∨ c = '\n'
      · simp only [unitsGo, h, if_pos, List.mem_cons] at hu
        rcases hu with rfl | hu
        · simp
        · exact ih [] u hu
      · simp only [unitsGo, h, if_neg, not_false_iff] at hu
        exact ih (acc ++ [c]) u hu

theorem textUnits_ne_nil (s : Str) : ∀ u ∈ textUnits s, u ≠ [] :=
  unitsGo_ne_nil s []

theorem overlapSlice_length_le_ov (size ov : Nat) (prev u : Str) :
    (overlapSlice size ov prev u).length ≤ ov := by
  unfold overlapSlice takeLastN
  split
  · simp only [List.length_drop]
    omega
  · simp

theorem packGo_removeOverlaps (size ov : Nat) (units : List Str) :
    ∀ o cur, o ≤ cur.length →
      removeOverlaps (packGo size ov o cur units) = cur.drop o ++ units.flatten := by
  induction units with
  | nil => intro o cur _; simp [packGo, removeOverlaps]
  | cons u rest ih =>
      intro o cur ho
      by_cases h : cur.length + u.length ≤ size
      · rw [packGo]
        simp only [h, if_pos]
        rw [ih o (cur ++ u) (ho.trans (by simp))]
        rw [List.drop_append_of_le_length ho]
        simp
      · rw [packGo]
        simp only [h, if_neg, not_false_iff]
        have h2 : (overlapSlice size ov cur u).length ≤
            (overlapSlice size ov cur u ++ u).length := by simp
        have ih2 := ih _ _ h2
        simp only [removeOverlaps, List.map_cons, List.flatten_cons] at ih2 ⊢
        rw [ih2, List.drop_left]

theorem overlapSlice_length_add (size ov : Nat) (prev u : Str) (h : u.length ≤ size) :
    (overlapSlice size ov prev u).length + u.length ≤ size := by
  unfold overlapSlice takeLastN
  rw [if_pos h]
  simp only [List.length_drop]
  omega

theorem overlapSlice_of_overlong (size ov : Nat) (prev u : Str)
    (h : ¬u.length ≤ size) : overlapSlice size ov prev u = [] := by
  unfold overlapSlice
  rw [if_neg h]

theorem packGo_ne_nil (size ov : Nat) (units : List Str) :
    ∀ o cur, cur ≠ [] → (∀ u ∈ units, u ≠ []) →
      ∀ p ∈ packGo size ov o cur units, p.2 ≠ [] := by
  induction units with
  | nil =>
      intro o cur hc _ p hp
      simp only [packGo, List.mem_singleton] at hp
      subst hp
      exact hc
  | cons u rest ih =>
      intro o cur hc hu p hp
      rw [packGo] at hp
      by_cases h : cur.length + u.length ≤ size
      · rw [if_pos h] at hp
        exact ih o (cur ++ u) (by simp [hc]) (fun v hv => hu v (List.mem_cons_of_mem u hv)) p hp
      · rw [if_neg h] at hp
        rcases List.mem_cons.mp hp with rfl | hp2
        · exact hc
        · refine ih _ _ ?_ (fun v hv => hu v (List.mem_cons_of_mem u hv)) p hp2
          have hune : u ≠ [] := hu u (List.mem_cons_self u rest)
          simp [hune]

theorem packGo_size (size ov : Nat) (allU : List Str) (units : List Str) :
    ∀ o cur, (cur.length ≤ size ∨ cur ∈ allU) → (∀ u ∈ units, u ∈ allU) →
      ∀ p ∈ packGo size ov o cur units, p.2.length ≤ size ∨ p.2 ∈ allU := by
  induction units with
  | nil =>
      intro o cur hc _ p hp
      simp only [packGo, List.mem_singleton] at hp
      subst hp
      exact hc
  | cons u rest ih =>
      intro o cur hc hu p hp
      rw [packGo] at hp
      by_cases h : cur.length + u.length ≤ size
      · rw [if_pos h] at hp
        refine ih o (cur ++ u) (Or.inl ?_) (fun v hv => hu v (List.mem_cons_of_mem u hv)) p hp
        simpa using h
      · rw [if_neg h] at hp
        rcases List.mem_cons.mp hp with rfl | hp2
        · exact hc
        · refine ih _ _ ?_ (fun v hv => hu v (List.mem_cons_of_mem u hv)) p hp2
          by_cases hlen : u.length ≤ size
          · exact Or.inl (by simpa using overlapSlice_length_add size ov cur u hlen)
          · rw [overlapSlice_of_overlong size ov cur u hlen]
            exact Or.inr (by simpa using hu u (List.mem_cons_self u rest))

theorem packGo_overlap_le (size ov : Nat) (units : List Str) :
    ∀ o cur, o ≤ ov → ∀ p ∈ packGo size ov o cur units, p.1 ≤ ov := by
  induction units with
  | nil =>
      intro o cur ho p hp
      simp only [packGo, List.mem_singleton] at hp
      subst hp
      exact ho
  | cons u rest ih =>
      intro o cur ho p hp
      rw [packGo] at hp
      by_cases h : cur.length + u.length ≤ size
      · rw [if_pos h] at hp
        exact ih o (cur ++ u) ho p hp
      · rw [if_neg h] at hp
        rcases List.mem_cons.mp hp with rfl | hp2
        · exact ho
        · exact ih _ _ (overlapSlice_length_le_ov size ov cur u) p hp2

theorem textUnits_of_ne_nil (s : Str) (h : s ≠ []) : textUnits s ≠ [] := by
  intro hu
  exact h (by rw [← textUnits_flatten s, hu]; rfl)

/-- Claim C8 (counterexample to the claim as stated): for the non-empty input
consisting of a space followed by the letter a, with chunk_size 3 and
chunk_overlap 1, the chunker output is the single chunk "a": its full
concatenation — a fortiori any concatenation with overlaps removed, which is a
sub-concatenation of it — differs from the original text, because
split_into_chunks strips the input before splitting.  Removing the recorded
overlaps reconstructs the trimmed text instead. -/
theorem C8_counterexample :
    (0 : Nat) < 1 ∧ 1 < 3 ∧ ([' ', 'a'] : Str) ≠ [] ∧
    split_into_chunks [' ', 'a'] 3 1 = [['a']] ∧
    (split_into_chunks [' ', 'a'] 3 1).flatten ≠ [' ', 'a'] ∧
    removeOverlaps (chunksWithOverlaps [' ', 'a'] 3 1) = ['a'] := by decide

/-- Claim C8 (amended): for every non-empty input text and parameters with
0 < chunk_overlap < chunk_size, every chunk returned by split_into_chunks is
non-empty and has length at most chunk_size, except that a single atomic unit
longer than chunk_size is emitted whole; each chunk repeats at most
chunk_overlap characters of its predecessor, and concatenating the chunks with
those overlaps removed reconstructs the stripped input text (the text after
Python str.strip, which split_into_chunks applies first) rather than the raw
input. -/
theorem C8_amended (text : Str) (size ov : Nat) (h1 : 0 < ov) (h2 : ov < size)
    (h3 : text ≠ []) :
    (∀ c ∈ split_into_chunks text size ov,
        c ≠ [] ∧ (c.length ≤ size ∨ (c ∈ textUnits (pyStrip text) ∧ size < c.length)))
    ∧ removeOverlaps (chunksWithOverlaps text size ov) = pyStrip text
    ∧ (∀ p ∈ chunksWithOverlaps text size ov, p.1 ≤ ov) := by
  by_cases hs : (pyStrip text).isEmpty
  · have hstrip : pyStrip text = [] := List.isEmpty_iff.mp hs
    have hunits : textUnits (pyStrip text) = [] := by
      rw [hstrip]; rfl
    constructor
    · intro c hc
      simp [split_into_chunks, hs] at hc
    · constructor
      · rw [chunksWithOverlaps, hunits, hstrip]; rfl
      · intro p hp
        rw [chunksWithOverlaps, hunits] at hp
        simp [packUnits] at hp
  · obtain ⟨u, rest, hur⟩ :
        ∃ u rest, textUnits (pyStrip text) = u :: rest := by
      cases hu : textUnits (pyStrip text) with
      | nil => exact absurd hu (textUnits_of_ne_nil _ (List.isEmpty_iff.not.mp hs))
      | cons a l => exact ⟨a, l, rfl⟩
    have hchunks : chunksWithOverlaps text size ov = packGo size ov 0 u rest := by
      rw [chunksWithOverlaps, hur]; rfl
    have humem : ∀ v ∈ u :: rest, v ∈ textUnits (pyStrip text) := by
      rw [hur]; exact fun v hv => hv
    have hune : ∀ v ∈ u :: rest, v ≠ [] := by
      intro v hv
      exact textUnits_ne_nil (pyStrip text) v (humem v hv)
    refine ⟨?_, ?_, ?_⟩
    · intro c hc
      rw [split_into_chunks, if_neg hs, hchunks] at hc
      obtain ⟨p, hp, hpc⟩ := List.mem_map.mp hc
      subst hpc
      constructor
      · exact packGo_ne_nil size ov rest 0 u (hune u (List.mem_cons_self u rest))
          (fun v hv => hune v (List.mem_cons_of_mem u hv)) p hp
      · have := packGo_size size ov (textUnits (pyStrip text)) rest 0 u
          (Or.inr (humem u (List.mem_cons_self u rest)))
          (fun v hv => humem v (List.mem_cons_of_mem u hv)) p hp
        rcases this with hle | hmem
        · exact Or.inl hle
        · by_cases hlen : p.2.length ≤ size
          · exact Or.inl hlen
          · exact Or.inr ⟨hmem, Nat.lt_of_not_le hlen⟩
    · rw [hchunks, packGo_removeOverlaps size ov rest 0 u (Nat.zero_le _)]
      rw [List.drop_zero, ← List.flatten_cons, ← hur, textUnits_flatten]
    · intro p hp
      rw [hchunks] at hp
      exact packGo_overlap_le size ov rest 0 u (Nat.zero_le _) p hp

/-- Witness for C8_amended at the concrete input "ab c" with chunk_size 3 and
chunk_overlap 1. -/
theorem C8_amended_witness :
    (∀ c ∈ split_into_chunks ['a', 'b', ' ', 'c'] 3 1,
        c ≠ [] ∧ (c.length ≤ 3 ∨
          (c ∈ textUnits (pyStrip ['a', 'b', ' ', 'c']) ∧ 3 < c.length)))
    ∧ removeOverlaps (chunksWithOverlaps ['a', 'b', ' ', 'c'] 3 1) =
        pyStrip ['a', 'b', ' ', 'c']
    ∧ (∀ p ∈ chunksWithOverlaps ['a', 'b', ' ', 'c'] 3 1, p.1 ≤ 1) :=
  C8_amended ['a', 'b', ' ', 'c'] 3 1 (by decide) (by decide) (by decide)

/-! ### Tracker lemmas -/

theorem splitLinesGo_cons (acc : Str) (c : Char) (cs : Str) :
    splitLinesGo acc (c :: cs)
      = if c = '\n' then acc :: splitLinesGo [] cs else splitLinesGo (acc ++ [c]) cs := rfl

theorem splitLinesGo_ne_nil (s acc : Str) : splitLinesGo acc s ≠ [] := by
  induction s generalizing acc with
  | nil => simp [splitLinesGo]
  | cons c cs ih =>
      rw [splitLinesGo_cons]
      by_cases h : c = '\n'
      · simp [h]
      · simpa [h] using ih (acc ++ [c])

theorem dropLast_cons_ne_nil (a : Str) (l : List Str) (h : l ≠ []) :
    (a :: l).dropLast = a :: l.dropLast := by
  cases l with
  | nil => exact absurd rfl h
  | cons x xs => rfl

theorem splitLinesGo_append_nl (a : Str) :
    ∀ (b acc : Str), splitLinesGo acc ((a ++ ['\n']) ++ b)
      = (splitLinesGo acc (a ++ ['\n'])).dropLast ++ splitLinesGo [] b := by
  induction a with
  | nil =>
      intro b acc
      rw [List.nil_append]
      rw [show (['\n'] ++ b : Str) = '\n' :: b from rfl]
      rw [splitLinesGo_cons, if_pos rfl]
      rw [show (['\n'] : Str) = '\n' :: [] from rfl]
      rw [splitLinesGo_cons, if_pos rfl]
      rw [show (splitLinesGo [] [] : List Str) = [[]] from rfl]
      rfl
  | cons c a' ih =>
      intro b acc
      rw [show ((c :: a') ++ ['\n']) ++ b = c :: ((a' ++ ['\n']) ++ b) from rfl]
      rw [show (c :: a') ++ ['\n'] = c :: (a' ++ ['\n']) from rfl]
      rw [splitLinesGo_cons, splitLinesGo_cons]
      by_cases h : c = '\n'
      · rw [if_pos h, if_pos h, ih b []]
        rw [dropLast_cons_ne_nil _ _ (splitLinesGo_ne_nil _ _)]
        rw [List.cons_append]
      · rw [if_neg h, if_neg h]
        exact ih b (acc ++ [c])

theorem splitLines_terminated (a : Str) :
    splitLines (a ++ ['\n']) = (splitLines (a ++ ['\n'])).dropLast ++ [[]] := by
  have h := splitLinesGo_append_nl a [] []
  rw [List.append_nil] at h
  exact h

theorem splitLinesGo_no_nl :
    ∀ (a : Str), '\n' ∉ a → ∀ (acc b : Str),
      splitLinesGo acc (a ++ '\n' :: b) = (acc ++ a) :: splitLinesGo [] b := by
  intro a
  induction a with
  | nil => intro _ acc b; simp [splitLinesGo]
  | cons c a' ih =>
      intro h acc b
      have hc : ¬c = '\n' := fun hh => h (hh ▸ List.mem_cons_self c a')
      rw [show (c :: a') ++ '\n' :: b = c :: (a' ++ '\n' :: b) from rfl]
      rw [splitLinesGo_cons, if_neg hc]
      rw [ih (fun hm => h (List.mem_cons_of_mem c hm)) (acc ++ [c]) b]
      simp

theorem loadLines_append (l1 l2 : List Str) :
    loadLines (l1 ++ l2) = loadLines l1 ++ loadLines l2 := by
  simp [loadLines, List.filter_append]

theorem load_append (content b : Str)
    (h : content = [] ∨ ∃ c', content = c' ++ ['\n']) :
    load_processed_files (content ++ b)
      = load_processed_files content ++ load_processed_files b := by
  rcases h with rfl | ⟨c', rfl⟩
  · rw [List.nil_append]
    have : load_processed_files ([] : Str) = [] := rfl
    rw [this, List.nil_append]
  · have hsplit : splitLines ((c' ++ ['\n']) ++ b)
        = (splitLines (c' ++ ['\n'])).dropLast ++ splitLines b :=
      splitLinesGo_append_nl c' b []
    unfold load_processed_files
    rw [hsplit, loadLines_append]
    congr 1
    have hterm2 := splitLines_terminated c'
    have hdrop : loadLines (splitLines (c' ++ ['\n']))
        = loadLines ((splitLines (c' ++ ['\n'])).dropLast) := by
      conv_lhs => rw [hterm2]
      rw [loadLines_append]
      have h0 : loadLines [([] : Str)] = [] := rfl
      rw [h0, List.append_nil]
    exact hdrop.symm

theorem pyStrip_all_ws (ws : Str) (h : ∀ c ∈ ws, Char.isWhitespace c = true) :
    pyStrip ws = [] := by
  unfold pyStrip
  rw [List.dropWhile_eq_nil_iff.mpr h]
  rfl

theorem load_single_line (name : Str) (hnl : '\n' ∉ name) :
    load_processed_files (name ++ ['\n'])
      = if (pyStrip name).isEmpty then [] else [pyStrip name] := by
  unfold load_processed_files splitLines
  rw [show name ++ ['\n'] = name ++ '\n' :: [] from rfl]
  rw [splitLinesGo_no_nl name hnl [] []]
  rw [List.nil_append]
  rw [show (splitLinesGo [] [] : List Str) = [[]] from rfl]
  unfold loadLines
  rw [List.map_cons, List.map_cons, List.map_nil]
  rw [show pyStrip ([] : Str) = [] from rfl]
  by_cases h : (pyStrip name).isEmpty
  · rw [if_pos h]
    simp [List.filter_cons, h]
  · rw [if_neg h]
    simp [List.filter_cons, h]

theorem mark_terminated (c n : Str) :
    mark_file_as_processed c n = (c ++ n) ++ ['\n'] := by
  unfold mark_file_as_processed
  rw [List.append_assoc]

theorem load_mono_foldl (x : Str) : ∀ (more : List Str) (c : Str),
    (c = [] ∨ ∃ c', c = c' ++ ['\n']) → x ∈ load_processed_files c →
    x ∈ load_processed_files (more.foldl mark_file_as_processed c) := by
  intro more
  induction more with
  | nil => intro c _ hx; exact hx
  | cons n ns ih =>
      intro c hc hx
      rw [List.foldl_cons]
      refine ih (mark_file_as_processed c n) (Or.inr ⟨c ++ n, mark_terminated c n⟩) ?_
      have : mark_file_as_processed c n = c ++ (n ++ ['\n']) := by
        unfold mark_file_as_processed
        rw [List.append_assoc]
      rw [this, load_append c (n ++ ['\n']) hc]
      exact List.mem_append_left _ hx

/-- Claim C7 (counterexample to the claim as stated): the name "a " (letter a
followed by a space) is non-empty after trimming and contains no newline, yet
after mark_file_as_processed on an empty tracker it is not a member of the
set returned by load: load strips each line, so only the trimmed form "a" is
in the set. -/
theorem C7_counterexample :
    pyStrip ['a', ' '] ≠ [] ∧ '\n' ∉ (['a', ' '] : Str) ∧
    ['a', ' '] ∉ load_processed_files (mark_file_as_processed [] ['a', ' ']) := by
  decide

/-- Claim C7 (amended): for every name that is non-empty after trimming,
contains no newline, and additionally carries no leading or trailing
whitespace (pyStrip name = name), once mark_file_as_processed has appended it
to a tracker whose content is empty or newline-terminated, name is a member of
the set returned by load_processed_files, and remains a member after any
further sequence of mark operations (every subsequent load); loading is
monotone (no operation removes or rewrites an existing entry), and appending a
blank line leaves the loaded set unchanged (blank lines are ignored). -/
theorem C7_amended (content name ws : Str) (more : List Str)
    (hterm : content = [] ∨ ∃ c', content = c' ++ ['\n'])
    (hname : pyStrip name = name) (hne : name ≠ []) (hnl : '\n' ∉ name)
    (hws : ∀ c ∈ ws, Char.isWhitespace c = true) (hwnl : '\n' ∉ ws) :
    name ∈ load_processed_files (mark_file_as_processed content name)
    ∧ (∀ x ∈ load_processed_files content,
        x ∈ load_processed_files (mark_file_as_processed content name))
    ∧ name ∈ load_processed_files
        (more.foldl mark_file_as_processed (mark_file_as_processed content name))
    ∧ load_processed_files (content ++ ws ++ ['\n']) = load_processed_files content := by
  have hmark : mark_file_as_processed content name = content ++ (name ++ ['\n']) := by
    unfold mark_file_as_processed
    rw [List.append_assoc]
  have hload : load_processed_files (mark_file_as_processed content name)
      = load_processed_files content ++ [name] := by
    rw [hmark, load_append content (name ++ ['\n']) hterm, load_single_line name hnl, hname]
    rw [if_neg (by simpa using hne)]
  have h1 : name ∈ load_processed_files (mark_file_as_processed content name) := by
    rw [hload]
    exact List.mem_append_right _ (List.mem_singleton.mpr rfl)
  refine ⟨h1, ?_, ?_, ?_⟩
  · intro x hx
    rw [hload]
    exact List.mem_append_left _ hx
  · exact load_mono_foldl name more (mark_file_as_processed content name)
      (Or.inr ⟨content ++ name, mark_terminated content name⟩) h1
  · rw [List.append_assoc, load_append content (ws ++ ['\n']) hterm]
    rw [load_single_line ws hwnl, pyStrip_all_ws ws hws]
    simp

/-- Witness for C7_amended on an empty tracker with name "a", blank line " ",
and one further marked name "b". -/
theorem C7_amended_witness :
    ['a'] ∈ load_processed_files (mark_file_as_processed [] ['a'])
    ∧ (∀ x ∈ load_processed_files [],
        x ∈ load_processed_files (mark_file_as_processed [] ['a']))
    ∧ ['a'] ∈ load_processed_files
        ([['b']].foldl mark_file_as_processed (mark_file_as_processed [] ['a']))
    ∧ load_processed_files (([] : Str) ++ [' '] ++ ['\n']) = load_processed_files [] :=
  C7_amended [] ['a'] [' '] [['b']] (Or.inl rfl) (by decide) (by decide) (by decide)
    (by decide) (by decide)

/-! ### Ingestion lemmas -/

theorem buildDocs_cons_ok (fn : Str) (i : Nat) (t0 : Option Str) (ps : List PageExtract) :
    buildDocs fn i (.ok t0 :: ps)
      = match buildDocs fn (i + 1) ps with
        | .error e => .error e
        | .ok docs => .ok (pageDocs fn (i + 1) (t0.getD []) ++ docs) := rfl

theorem buildDocs_cons_err (fn e : Str) (i : Nat) (ps : List PageExtract) :
    buildDocs fn i (.error e :: ps) = .error e := rfl

theorem buildDocs_all_ok (fn : Str) : ∀ (ps : List PageExtract) (i : Nat),
    (∀ p ∈ ps, ∃ t0, p = .ok t0) → ∃ docs, buildDocs fn i ps = .ok docs := by
  intro ps
  induction ps with
  | nil => intro i _; exact ⟨[], rfl⟩
  | cons p ps ih =>
      intro i hall
      obtain ⟨t0, rfl⟩ := hall p (List.mem_cons_self p ps)
      obtain ⟨docs, hdocs⟩ := ih (i + 1) (fun q hq => hall q (List.mem_cons_of_mem _ hq))
      exact ⟨_, by rw [buildDocs_cons_ok, hdocs]⟩

theorem buildDocs_first_error (fn e : Str) : ∀ (pre : List PageExtract),
    (∀ p ∈ pre, ∃ t0, p = .ok t0) → ∀ (i : Nat) (post : List PageExtract),
      buildDocs fn i (pre ++ .error e :: post) = .error e := by
  intro pre
  induction pre with
  | nil => intro _ i post; rw [List.nil_append, buildDocs_cons_err]
  | cons p pre ih =>
      intro hall i post
      obtain ⟨t0, rfl⟩ := hall p (List.mem_cons_self p pre)
      rw [List.cons_append, buildDocs_cons_ok]
      rw [ih (fun q hq => hall q (List.mem_cons_of_mem _ hq)) (i + 1) post]

theorem processOne_new (snapshot : List Str) (st : FolderState) (res : FolderResults)
    (fn : Str) (pages : List PageExtract) (r : IngestOutcome)
    (hnot : fn ∉ snapshot) (hing : ingest_pdf_bytes pages fn = .ok r) :
    processOne snapshot (st, res) (fn, pages)
      = ({ tracker := mark_file_as_processed st.tracker fn,
           index := st.index ++ r.inserted },
         { res with processed := res.processed + 1,
                    files_processed := res.files_processed ++ [(fn, r.chunks_indexed)] }) := by
  unfold processOne
  rw [if_neg hnot, hing]

theorem processOne_skip (snapshot : List Str) (st : FolderState) (res : FolderResults)
    (fn : Str) (pages : List PageExtract) (hmem : fn ∈ snapshot) :
    processOne snapshot (st, res) (fn, pages)
      = (st, { res with skipped := res.skipped + 1,
                        files_skipped := res.files_skipped ++ [fn] }) := by
  unfold processOne
  rw [if_pos hmem]

theorem processOne_fail (snapshot : List Str) (st : FolderState) (res : FolderResults)
    (fn : Str) (pages : List PageExtract) (e : Str)
    (hnot : fn ∉ snapshot) (hing : ingest_pdf_bytes pages fn = .error e) :
    processOne snapshot (st, res) (fn, pages)
      = (st, { res with failed := res.failed + 1,
                        files_failed := res.files_failed ++ [(fn, e)] }) := by
  unfold processOne
  rw [if_neg hnot, hing]

/-- Claim C2 (counterexample to the claim as stated): a file whose single page
extracts to whitespace-only text yields zero chunks across all pages;
ingest_pdf_bytes returns chunks_indexed = 0 and inserts nothing, but the
folder scan marks the file as processed anyway, so after the run the file's
name IS a member of the set returned by load_processed_files — contradicting
the claim that it is absent and that a later run attempts the file again. -/
theorem C2_counterexample :
    ingest_pdf_bytes [Except.ok (some [' '])] ['a'] = .ok ⟨['a'], 0, []⟩
    ∧ ['a'] ∈ load_processed_files
        (ingest_folder_impl [(['a'], [Except.ok (some [' '])])] ⟨[], []⟩).1.tracker := by
  decide

/-- Claim C2 (amended): for every source file whose pages yield zero chunks in
total, ingest_pdf_bytes returns chunks_indexed = 0 without inserting into the
index; but the folder scan calls mark_file_as_processed unconditionally after
any non-raising ingest, so after a run that processes such a file the index is
unchanged while the file's name IS in the processed set returned by a
subsequent load, and a later run skips the file instead of attempting it
again. -/
theorem C2_amended (fn : Str) (pages : List PageExtract) (st : FolderState)
    (h : buildDocs fn 0 pages = .ok [])
    (hnot : fn ∉ load_processed_files st.tracker)
    (hterm : st.tracker = [] ∨ ∃ c', st.tracker = c' ++ ['\n'])
    (hname : pyStrip fn = fn) (hne : fn ≠ []) (hnl : '\n' ∉ fn) :
    ingest_pdf_bytes pages fn = .ok ⟨fn, 0, []⟩
    ∧ (ingest_folder_impl [(fn, pages)] st).1.index = st.index
    ∧ (ingest_folder_impl [(fn, pages)] st).1.tracker
        = mark_file_as_processed st.tracker fn
    ∧ fn ∈ load_processed_files (ingest_folder_impl [(fn, pages)] st).1.tracker
    ∧ (ingest_folder_impl [(fn, pages)]
        (ingest_folder_impl [(fn, pages)] st).1).2.files_skipped = [fn] := by
  have hing : ingest_pdf_bytes pages fn = .ok ⟨fn, 0, []⟩ := by
    unfold ingest_pdf_bytes
    rw [h]
    rfl
  have hrun : ingest_folder_impl [(fn, pages)] st
      = ({ tracker := mark_file_as_processed st.tracker fn, index := st.index ++ [] },
         { emptyResults with processed := 0 + 1,
                             files_processed := [] ++ [(fn, 0)] }) := by
    unfold ingest_folder_impl
    rw [List.foldl_cons, List.foldl_nil]
    exact processOne_new _ st emptyResults fn pages ⟨fn, 0, []⟩ hnot hing
  have hload : load_processed_files (mark_file_as_processed st.tracker fn)
      = load_processed_files st.tracker ++ [fn] := by
    rw [show mark_file_as_processed st.tracker fn = st.tracker ++ (fn ++ ['\n']) from by
      unfold mark_file_as_processed; rw [List.append_assoc]]
    rw [load_append st.tracker (fn ++ ['\n']) hterm, load_single_line fn hnl, hname]
    rw [if_neg (by simpa using hne)]
  have hmem : fn ∈ load_processed_files (mark_file_as_processed st.tracker fn) := by
    rw [hload]
    exact List.mem_append_right _ (List.mem_singleton.mpr rfl)
  refine ⟨hing, ?_, ?_, ?_, ?_⟩
  · rw [hrun]
    simp
  · rw [hrun]
  · rw [hrun]
    exact hmem
  · rw [hrun]
    unfold ingest_folder_impl
    rw [List.foldl_cons, List.foldl_nil]
    rw [processOne_skip _ _ emptyResults fn pages hmem]
    rfl

/-- Witness for C2_amended: a one-file folder whose only page is whitespace,
over an empty tracker and empty index. -/
theorem C2_amended_witness :
    ingest_pdf_bytes [Except.ok (some [' '])] ['a'] = .ok ⟨['a'], 0, []⟩
    ∧ (ingest_folder_impl [(['a'], [Except.ok (some [' '])])] ⟨[], []⟩).1.index
        = (⟨[], []⟩ : FolderState).index
    ∧ (ingest_folder_impl [(['a'], [Except.ok (some [' '])])] ⟨[], []⟩).1.tracker
        = mark_file_as_processed (⟨[], []⟩ : FolderState).tracker ['a']
    ∧ ['a'] ∈ load_processed_files
        (ingest_folder_impl [(['a'], [Except.ok (some [' '])])] ⟨[], []⟩).1.tracker
    ∧ (ingest_folder_impl [(['a'], [Except.ok (some [' '])])]
        (ingest_folder_impl [(['a'], [Except.ok (some [' '])])] ⟨[], []⟩).1).2.files_skipped
        = [['a']] :=
  C2_amended ['a'] [Except.ok (some [' '])] ⟨[], []⟩ (by decide) (by decide)
    (Or.inl rfl) (by decide) (by decide) (by decide)

/-- Claim C3 (counterexample to the claim as stated): a two-page source whose
first page extracts text and whose second page's extraction raises does not
complete with the chunk count of the remaining pages: ingest_pdf_bytes
propagates the page-level error (the source has no per-page exception
handler). -/
theorem C3_counterexample :
    ingest_pdf_bytes [Except.ok (some ['h', 'i']), Except.error ['b']] ['a']
      = .error ['b']
    ∧ ∀ r, ingest_pdf_bytes [Except.ok (some ['h', 'i']), Except.error ['b']] ['a']
        ≠ .ok r := by
  have h : ingest_pdf_bytes [Except.ok (some ['h', 'i']), Except.error ['b']] ['a']
      = .error ['b'] := by decide
  exact ⟨h, fun r hr => by rw [h] at hr; cases hr⟩

/-- Claim C3 (amended): a page whose extraction returns None or whitespace-only
text contributes zero chunks and does not abort the source — ingestion of the
remaining pages proceeds with page numbering preserved — and a source all of
whose pages extract without raising completes with a document list; but a page
whose extraction raises an error aborts the source: ingest_pdf_bytes returns
that (first) error instead of a chunk count, and the folder scan catches it,
records the file as failed, and leaves tracker and index untouched. -/
theorem C3_amended (fn t e : Str) (i : Nat) (ps pre post : List PageExtract)
    (snapshot : List Str) (st : FolderState) (res : FolderResults)
    (hws : (pyStrip t).isEmpty = true)
    (hok : ∀ p ∈ ps, ∃ t0, p = .ok t0)
    (hpre : ∀ p ∈ pre, ∃ t0, p = .ok t0)
    (hnot : fn ∉ snapshot) :
    buildDocs fn i (.ok (some t) :: ps) = buildDocs fn (i + 1) ps
    ∧ buildDocs fn i (.ok none :: ps) = buildDocs fn (i + 1) ps
    ∧ (∃ docs, buildDocs fn i ps = .ok docs)
    ∧ ingest_pdf_bytes (pre ++ .error e :: post) fn = .error e
    ∧ processOne snapshot (st, res) (fn, pre ++ .error e :: post)
        = (st, { res with failed := res.failed + 1,
                          files_failed := res.files_failed ++ [(fn, e)] }) := by
  have hpd : pageDocs fn (i + 1) t = [] := by
    unfold pageDocs
    rw [if_pos hws]
  have hpd0 : pageDocs fn (i + 1) ([] : Str) = [] := rfl
  have herr : buildDocs fn 0 (pre ++ .error e :: post) = .error e :=
    buildDocs_first_error fn e pre hpre 0 post
  have hing : ingest_pdf_bytes (pre ++ .error e :: post) fn = .error e := by
    unfold ingest_pdf_bytes
    rw [herr]
  refine ⟨?_, ?_, buildDocs_all_ok fn ps i hok, hing, ?_⟩
  · rw [buildDocs_cons_ok]
    cases hrec : buildDocs fn (i + 1) ps with
    | error e2 => rfl
    | ok docs =>
        show Except.ok (pageDocs fn (i + 1) t ++ docs) = _
        rw [hpd, List.nil_append]
  · rw [buildDocs_cons_ok]
    cases hrec : buildDocs fn (i + 1) ps with
    | error e2 => rfl
    | ok docs =>
        show Except.ok (pageDocs fn (i + 1) ([] : Str) ++ docs) = _
        rw [hpd0, List.nil_append]
  · exact processOne_fail snapshot st res fn _ e hnot hing

/-- Witness for C3_amended on concrete pages: one good page, a whitespace
page, and an error page. -/
theorem C3_amended_witness :
    buildDocs ['a'] 0 (.ok (some [' ']) :: [Except.ok (some ['h'])])
      = buildDocs ['a'] (0 + 1) [Except.ok (some ['h'])]
    ∧ buildDocs ['a'] 0 (.ok none :: [Except.ok (some ['h'])])
      = buildDocs ['a'] (0 + 1) [Except.ok (some ['h'])]
    ∧ (∃ docs, buildDocs ['a'] 0 [Except.ok (some ['h'])] = .ok docs)
    ∧ ingest_pdf_bytes ([Except.ok (some ['h'])] ++ .error ['b'] :: []) ['a']
      = .error ['b']
    ∧ processOne [] (⟨[], []⟩, emptyResults)
        (['a'], [Except.ok (some ['h'])] ++ .error ['b'] :: [])
        = (⟨[], []⟩,
           { emptyResults with failed := emptyResults.failed + 1,
                               files_failed := emptyResults.files_failed ++ [(['a'], ['b'])] }) :=
  C3_amended ['a'] [' '] ['b'] 0 [Except.ok (some ['h'])] [Except.ok (some ['h'])] []
    [] ⟨[], []⟩ emptyResults (by decide)
    (fun p hp => by rw [List.mem_singleton] at hp; exact ⟨some ['h'], hp⟩)
    (fun p hp => by rw [List.mem_singleton] at hp; exact ⟨some ['h'], hp⟩)
    (by decide)

theorem chunkDocs_mem (fn : Str) (pageNum : Nat) :
    ∀ (cs : List Str) (k : Nat) (d : Document),
      d ∈ chunkDocs fn pageNum k cs ↔
        ∃ j c, cs[j]? = some c ∧ d = mkDoc fn pageNum (k + j) c := by
  intro cs
  induction cs with
  | nil =>
      intro k d
      simp [chunkDocs]
  | cons c cs ih =>
      intro k d
      constructor
      · intro hd
        rcases List.mem_cons.mp hd with rfl | hd2
        · exact ⟨0, c, List.getElem?_cons_zero, by rw [Nat.add_zero]⟩
        · obtain ⟨j, c', hj, hdc⟩ := (ih (k + 1) d).mp hd2
          refine ⟨j + 1, c', by rw [List.getElem?_cons_succ]; exact hj, ?_⟩
          rw [hdc, show k + 1 + j = k + (j + 1) from by omega]
      · rintro ⟨j, c', hj, rfl⟩
        cases j with
        | zero =>
            rw [List.getElem?_cons_zero] at hj
            injection hj with hj
            subst hj
            rw [Nat.add_zero]
            exact List.mem_cons_self _ _
        | succ j =>
            rw [List.getElem?_cons_succ] at hj
            refine List.mem_cons_of_mem _ ((ih (k + 1) _).mpr ⟨j, c', hj, ?_⟩)
            rw [show k + (j + 1) = k + 1 + j from by omega]

theorem buildDocs_mem (fn : Str) :
    ∀ (pages : List PageExtract) (i : Nat) (docs : List Document),
      buildDocs fn i pages = .ok docs → ∀ d ∈ docs,
        ∃ jp t0, pages[jp]? = some (.ok t0)
          ∧ d.metadata.page_start = i + jp + 1
          ∧ ∃ k c, (split_into_chunks (t0.getD []) 1200 150)[k]? = some c
              ∧ d = mkDoc fn (i + jp + 1) k c := by
  intro pages
  induction pages with
  | nil =>
      intro i docs h d hd
      injection h with h
      rw [← h] at hd
      cases hd
  | cons p ps ih =>
      intro i docs h d hd
      cases p with
      | error e => rw [buildDocs_cons_err] at h; cases h
      | ok t0 =>
          rw [buildDocs_cons_ok] at h
          cases hrec : buildDocs fn (i + 1) ps with
          | error e => rw [hrec] at h; cases h
          | ok docs' =>
              rw [hrec] at h
              injection h with h
              rw [← h] at hd
              rcases List.mem_append.mp hd with hd1 | hd2
              · unfold pageDocs at hd1
                by_cases hws : (pyStrip (t0.getD [])).isEmpty
                · rw [if_pos hws] at hd1
                  cases hd1
                · rw [if_neg hws] at hd1
                  obtain ⟨j, c, hj, hdc⟩ := (chunkDocs_mem fn (i + 1) _ 0 d).mp hd1
                  refine ⟨0, t0, List.getElem?_cons_zero, ?_, j, c, ?_, ?_⟩
                  · rw [hdc]
                    show i + 1 = i + 0 + 1
                    omega
                  · exact hj
                  · rw [hdc]
                    rw [show (0 : Nat) + j = j from by omega,
                        show i + 0 + 1 = i + 1 from by omega]
              · obtain ⟨jp, t0', hjp, hps, k, c, hk, hdc⟩ := ih (i + 1) docs' hrec d hd2
                refine ⟨jp + 1, t0', by rw [List.getElem?_cons_succ]; exact hjp, ?_, k, c, hk, ?_⟩
                · rw [hps]
                  omega
                · rw [hdc, show i + (jp + 1) + 1 = i + 1 + jp + 1 from by omega]

/-- Claim C9: every chunk document created by ingestion carries page_start
equal to page_end equal to the 1-based number of the single page whose
extracted text produced it, and chunk_index equal to its 0-based position
within that page's chunk list; no indexed chunk spans more than one page. -/
theorem C9_page_metadata (fn : Str) (pages : List PageExtract) (docs : List Document)
    (h : buildDocs fn 0 pages = .ok docs) :
    ∀ d ∈ docs, d.metadata.page_end = d.metadata.page_start
      ∧ 1 ≤ d.metadata.page_start
      ∧ ∃ t0, pages[d.metadata.page_start - 1]? = some (.ok t0)
        ∧ (split_into_chunks (t0.getD []) 1200 150)[d.metadata.chunk_index]?
            = some (d.page_content.drop (fileTag fn).length) := by
  intro d hd
  obtain ⟨jp, t0, hjp, hps, k, c, hk, hdc⟩ := buildDocs_mem fn pages 0 docs h d hd
  subst hdc
  have hps' : (mkDoc fn (0 + jp + 1) k c).metadata.page_start = jp + 1 := by
    show 0 + jp + 1 = jp + 1
    omega
  refine ⟨rfl, by rw [hps']; omega, t0, ?_, ?_⟩
  · rw [hps', show jp + 1 - 1 = jp from by omega]
    exact hjp
  · show (split_into_chunks (t0.getD []) 1200 150)[k]?
        = some ((fileTag fn ++ c).drop (fileTag fn).length)
    rw [List.drop_left]
    exact hk

/-- Witness for C9_page_metadata on a one-page document with text "hi",
evaluated at its single chunk document. -/
theorem C9_witness :
    (mkDoc ['a'] 1 0 ['h', 'i']).metadata.page_end
      = (mkDoc ['a'] 1 0 ['h', 'i']).metadata.page_start
    ∧ 1 ≤ (mkDoc ['a'] 1 0 ['h', 'i']).metadata.page_start
    ∧ ∃ t0 : Option Str,
        [(Except.ok (some ['h', 'i']) : PageExtract)][(mkDoc ['a'] 1 0 ['h', 'i']).metadata.page_start - 1]?
          = some (.ok t0)
      ∧ (split_into_chunks (t0.getD []) 1200 150)[(mkDoc ['a'] 1 0 ['h', 'i']).metadata.chunk_index]?
          = some ((mkDoc ['a'] 1 0 ['h', 'i']).page_content.drop (fileTag ['a']).length) :=
  C9_page_metadata ['a'] [Except.ok (some ['h', 'i'])] [mkDoc ['a'] 1 0 ['h', 'i']]
    (by decide) (mkDoc ['a'] 1 0 ['h', 'i']) (List.mem_singleton.mpr rfl)

/-- Claim C10: the stored text of every chunk indexed by ingestion is not the
raw chunker output but the literal preamble composed of an open bracket,
the word File, a colon and a space, then the file name, a close bracket and a
newline, followed by the chunk text; so every indexed content begins with the
source file's name preamble. -/
theorem C10_content_preamble (fn : Str) (pages : List PageExtract) (docs : List Document)
    (h : buildDocs fn 0 pages = .ok docs) :
    ∀ d ∈ docs, ∃ (c : Str) (jp : Nat) (t0 : Option Str), pages[jp]? = some (.ok t0)
      ∧ c ∈ split_into_chunks (t0.getD []) 1200 150
      ∧ d.page_content = fileTag fn ++ c := by
  intro d hd
  obtain ⟨jp, t0, hjp, _, k, c, hk, hdc⟩ := buildDocs_mem fn pages 0 docs h d hd
  exact ⟨c, jp, t0, hjp, List.getElem?_mem hk, by rw [hdc]; rfl⟩

/-- Witness for C10_content_preamble on a one-page document with text "hi",
evaluated at its single chunk document. -/
theorem C10_witness :
    ∃ (c : Str) (jp : Nat) (t0 : Option Str),
      [(Except.ok (some ['h', 'i']) : PageExtract)][jp]? = some (.ok t0)
      ∧ c ∈ split_into_chunks (t0.getD []) 1200 150
      ∧ (mkDoc ['a'] 1 0 ['h', 'i']).page_content = fileTag ['a'] ++ c :=
  C10_content_preamble ['a'] [Except.ok (some ['h', 'i'])] [mkDoc ['a'] 1 0 ['h', 'i']]
    (by decide) (mkDoc ['a'] 1 0 ['h', 'i']) (List.mem_singleton.mpr rfl)

/-! ### Retrieval lemmas -/

theorem rankOf_eq_none {α : Type} [DecidableEq α] (c : α) :
    ∀ (l : List α), c ∉ l → rankOf c l = none := by
  intro l
  induction l with
  | nil => intro _; rfl
  | cons x xs ih =>
      intro h
      rw [rankOf, if_neg (fun hx => h (by rw [← hx]; exact List.mem_cons_self x xs))]
      rw [ih (fun hm => h (List.mem_cons_of_mem _ hm))]
      rfl

theorem mem_insertRanked {α : Type} (le : α → α → Bool) (a x : α) :
    ∀ (l : List α), x ∈ insertRanked le a l → x = a ∨ x ∈ l := by
  intro l
  induction l with
  | nil =>
      intro h
      rw [insertRanked] at h
      exact Or.inl (List.mem_singleton.mp h)
  | cons b bs ih =>
      intro h
      rw [insertRanked] at h
      by_cases hle : le a b
      · rw [if_pos hle] at h
        rcases List.mem_cons.mp h with rfl | h2
        · exact Or.inl rfl
        · exact Or.inr h2
      · rw [if_neg hle] at h
        rcases List.mem_cons.mp h with rfl | h2
        · exact Or.inr (List.mem_cons_self _ _)
        · rcases ih h2 with rfl | h3
          · exact Or.inl rfl
          · exact Or.inr (List.mem_cons_of_mem _ h3)

theorem mem_sortRanked {α : Type} (le : α → α → Bool) (x : α) :
    ∀ (l : List α), x ∈ sortRanked le l → x ∈ l := by
  intro l
  induction l with
  | nil => intro h; rw [sortRanked] at h; cases h
  | cons a as ih =>
      intro h
      rw [sortRanked] at h
      rcases mem_insertRanked le a x _ h with rfl | h2
      · exact List.mem_cons_self _ _
      · exact List.mem_cons_of_mem _ (ih h2)

theorem mem_rrfFuse (k : Nat) (lists : List (List Record)) (lim : Nat) (r : Record) :
    r ∈ rrfFuse k lists lim → r ∈ lists.flatten := by
  intro h
  unfold rrfFuse at h
  exact List.mem_dedup.mp (mem_sortRanked _ r _ (List.mem_of_mem_take h))

theorem searchReq_file_name (ranking : List Record) (f : Str) (lim : Nat) :
    ∀ r ∈ searchReq ranking (some f) lim, r.file_name = f := by
  intro r hr
  unfold searchReq at hr
  have h3 := (List.mem_filter.mp (List.mem_of_mem_take hr)).2
  exact of_decide_eq_true h3

theorem denseOnly_file_name (denseScored : List (Record × ℚ)) (top_k : Nat) (f : Str) :
    ∀ r ∈ denseOnlySearch denseScored top_k (some f), r.file_name = f := by
  intro r hr
  unfold denseOnlySearch at hr
  obtain ⟨p, hp, rfl⟩ := List.mem_map.mp hr
  have h3 := (List.mem_filter.mp (List.mem_of_mem_take hp)).2
  exact of_decide_eq_true h3

theorem hybrid_file_name (denseRanking sparseRanking : List Record)
    (top_k : Nat) (f : Str) :
    ∀ r ∈ hybrid_search_milvus denseRanking sparseRanking top_k (some f),
      r.file_name = f := by
  intro r hr
  unfold hybrid_search_milvus at hr
  obtain ⟨q, hq, rfl⟩ := List.mem_map.mp hr
  have h2 := mem_rrfFuse RRF_K _ top_k q hq
  simp only [List.flatten_cons, List.flatten_nil, List.append_nil, List.mem_append] at h2
  rcases h2 with h | h
  · exact searchReq_file_name denseRanking f _ q h
  · exact searchReq_file_name sparseRanking f _ q h

/-- Claim C1 (counterexample to the claim as stated): with candidate 0 at rank
1 of both the dense list and the sparse list, the fused score computed by the
RRFRanker the code constructs (k = RRF_K and no weights) is 1/61 + 1/61, which
differs from the claim's weighted sum DENSE_WEIGHT/61 + SPARSE_WEIGHT/61; and
the dense list's contribution at rank 1 equals — does not exceed — the sparse
list's contribution at the same rank, because DENSE_WEIGHT and SPARSE_WEIGHT
are declared in src/app/retrieval.py but never passed to the ranker. -/
theorem C1_counterexample :
    rrfScore RRF_K [[(0 : Nat), 1], [0, 2]] 0
      ≠ weightedRrfScore RRF_K [(DENSE_WEIGHT, [(0 : Nat), 1]), (SPARSE_WEIGHT, [0, 2])] 0
    ∧ rrfContrib RRF_K (0 : Nat) [0, 1] = rrfContrib RRF_K (0 : Nat) [0, 2]
    ∧ ¬ rrfContrib RRF_K (0 : Nat) [0, 1] > rrfContrib RRF_K (0 : Nat) [0, 2] := by
  have hd : rrfContrib RRF_K (0 : Nat) [0, 1] = 1 / ((60 : ℚ) + 1) := rfl
  have hs : rrfContrib RRF_K (0 : Nat) [0, 2] = 1 / ((60 : ℚ) + 1) := rfl
  refine ⟨?_, ?_, ?_⟩
  · simp only [rrfScore, weightedRrfScore, List.map_cons, List.map_nil,
      List.sum_cons, List.sum_nil]
    rw [hd, hs]
    unfold DENSE_WEIGHT SPARSE_WEIGHT
    norm_num
  · rw [hd, hs]
  · rw [hd, hs]
    exact lt_irrefl _

/-- Claim C1 (amended): in hybrid mode the fused score of each candidate is
the unweighted Reciprocal Rank Fusion sum: over the dense and sparse candidate
lists it equals the sum of 1 / (RRF_K + r) over the lists containing the
candidate at 1-based rank r, and a list not containing the candidate
contributes zero.  The default constants DENSE_WEIGHT and SPARSE_WEIGHT do
satisfy dense > sparse, but they are not applied in the fusion: both lists
carry equal weight 1, so equal ranks give equal — not dense-dominant —
contributions. -/
theorem C1_amended {α : Type} [DecidableEq α] (dense sparse : List α) (c : α) (r : Nat) :
    rrfScore RRF_K [dense, sparse] c
      = rrfContrib RRF_K c dense + rrfContrib RRF_K c sparse
    ∧ (c ∉ dense → rrfContrib RRF_K c dense = 0)
    ∧ (rankOf c dense = some r → rrfContrib RRF_K c dense = 1 / ((RRF_K : ℚ) + r))
    ∧ DENSE_WEIGHT > SPARSE_WEIGHT
    ∧ (rankOf c dense = some r → rankOf c sparse = some r →
        rrfContrib RRF_K c dense = rrfContrib RRF_K c sparse) := by
  refine ⟨?_, ?_, ?_, by unfold DENSE_WEIGHT SPARSE_WEIGHT; norm_num, ?_⟩
  · simp [rrfScore]
  · intro h
    unfold rrfContrib
    rw [rankOf_eq_none c dense h]
  · intro h
    unfold rrfContrib
    rw [h]
  · intro h1 h2
    unfold rrfContrib
    rw [h1, h2]

/-- Witness for C1_amended with candidate 0 at rank 1 of dense list 0,1 and
sparse list 0,2. -/
theorem C1_amended_witness :
    rrfScore RRF_K [[(0 : Nat), 1], [0, 2]] 0
      = rrfContrib RRF_K 0 [(0 : Nat), 1] + rrfContrib RRF_K 0 [(0 : Nat), 2]
    ∧ ((0 : Nat) ∉ [(0 : Nat), 1] → rrfContrib RRF_K 0 [(0 : Nat), 1] = 0)
    ∧ (rankOf (0 : Nat) [(0 : Nat), 1] = some 1 →
        rrfContrib RRF_K 0 [(0 : Nat), 1] = 1 / ((RRF_K : ℚ) + 1))
    ∧ DENSE_WEIGHT > SPARSE_WEIGHT
    ∧ (rankOf (0 : Nat) [(0 : Nat), 1] = some 1 → rankOf (0 : Nat) [(0 : Nat), 2] = some 1 →
        rrfContrib RRF_K 0 [(0 : Nat), 1] = rrfContrib RRF_K 0 [(0 : Nat), 2]) :=
  C1_amended [(0 : Nat), 1] [0, 2] 0 1

/-- Claim C4: for every query issued with use_hybrid = True whose hybrid
search raises, query_docs returns exactly what the same call with
use_hybrid = False returns, each record tagged dense_only, instead of
propagating the error. -/
theorem C4_fallback (denseRanking sparseRanking : List Record)
    (denseScored : List (Record × ℚ)) (e : Str) (top_k : Nat) (filt : Option Str) :
    query_docs denseRanking sparseRanking denseScored (some e) top_k filt true
      = query_docs denseRanking sparseRanking denseScored (some e) top_k filt false
    ∧ ∀ r ∈ query_docs denseRanking sparseRanking denseScored (some e) top_k filt true,
        r.search_method = denseTag := by
  refine ⟨rfl, ?_⟩
  intro r hr
  unfold query_docs denseOnlySearch at hr
  obtain ⟨p, hp, rfl⟩ := List.mem_map.mp hr
  rfl

/-- Witness for C4_fallback on a one-record dense oracle. -/
theorem C4_witness :
    query_docs [] [] [(sampleRecord, 1)] (some ['x']) 5 none true
      = query_docs [] [] [(sampleRecord, 1)] (some ['x']) 5 none false
    ∧ ∀ r ∈ query_docs [] [] [(sampleRecord, 1)] (some ['x']) 5 none true,
        r.search_method = denseTag :=
  C4_fallback [] [] [(sampleRecord, 1)] ['x'] 5 none

/-- Claim C6: with a file filter supplied, the filter restricts both candidate
lists before fusion (each AnnSearchRequest carries the filter expression), and
no returned result — hybrid, dense-only, or fallback — has a file name
different from the filter value. -/
theorem C6_filter (denseRanking sparseRanking : List Record)
    (denseScored : List (Record × ℚ)) (hybridErr : Option Str)
    (top_k : Nat) (f : Str) (use_hybrid : Bool) :
    (∀ r ∈ searchReq denseRanking (some f) (top_k * 2), r.file_name = f)
    ∧ (∀ r ∈ searchReq sparseRanking (some f) (top_k * 2), r.file_name = f)
    ∧ ∀ r ∈ query_docs denseRanking sparseRanking denseScored hybridErr top_k
        (some f) use_hybrid, r.file_name = f := by
  refine ⟨searchReq_file_name denseRanking f (top_k * 2),
    searchReq_file_name sparseRanking f (top_k * 2), ?_⟩
  intro r hr
  unfold query_docs at hr
  cases use_hybrid with
  | false =>
      rw [if_neg (by simp)] at hr
      exact denseOnly_file_name denseScored top_k f r hr
  | true =>
      rw [if_pos rfl] at hr
      cases hybridErr with
      | none => exact hybrid_file_name denseRanking sparseRanking top_k f r hr
      | some e => exact denseOnly_file_name denseScored top_k f r hr

/-- Witness for C6_filter: rankings holding records of files a and b, filter
a, hybrid mode with a succeeding hybrid search. -/
theorem C6_witness :
    (∀ r ∈ searchReq [sampleRecord, otherRecord] (some ['a']) (5 * 2), r.file_name = ['a'])
    ∧ (∀ r ∈ searchReq [otherRecord] (some ['a']) (5 * 2), r.file_name = ['a'])
    ∧ ∀ r ∈ query_docs [sampleRecord, otherRecord] [otherRecord] [(sampleRecord, 1)]
        none 5 (some ['a']) true, r.file_name = ['a'] :=
  C6_filter [sampleRecord, otherRecord] [otherRecord] [(sampleRecord, 1)] none 5 ['a'] true

/-- Claim C5: of two simultaneous ingest_folder calls, whichever order their
non-blocking acquires interleave in, exactly one call executes and the other
returns the skipped, already-running status — never both execute, never both
skip; and once the winner releases in its finally block a later call executes
again (no blocking, no queuing). -/
theorem C5_mutual_exclusion (firstA : Bool) :
    ((overlappingRun firstA).1 = .executed ↔ (overlappingRun firstA).2 = .skippedBusy)
    ∧ ((overlappingRun firstA).1 = .executed ∨ (overlappingRun firstA).2 = .executed)
    ∧ ¬((overlappingRun firstA).1 = .executed ∧ (overlappingRun firstA).2 = .executed)
    ∧ ¬((overlappingRun firstA).1 = .skippedBusy ∧ (overlappingRun firstA).2 = .skippedBusy)
    ∧ (tryStart (finishRun (tryStart (tryStart false).2).2)).1 = .executed := by
  cases firstA <;> decide

end Rag
